import Mathlib

/-!
Verification of the cudalis version resolver (src/versions.rs, src/main.rs).

The Rust code is shallowly embedded: strings are Lean `String`s, Rust's
`str::split`, `str::replace`, `str::contains`, `str::starts_with` and the
byte-lexicographic `String::cmp` are re-implemented below as structurally
recursive (hence kernel-evaluable) functions on `List Char`.  For the ASCII
data handled by this program, comparing Unicode code points agrees with
Rust's byte-wise comparison of UTF-8 strings.  Rust panics (out-of-bounds
indexing, `unwrap` on `None`) are modelled by `Except.error`/`Option.none`;
`process::exit(1)` error paths are modelled by `Except.error` with the
message that the program prints.
-/

deriving instance DecidableEq for Except

namespace Cudalis

/-- Lexicographic order (as a Bool, `a ≤ b`) on character lists, comparing
code points; models Rust `String::cmp(..) != Greater`. -/
def lexLeL : List Char → List Char → Bool
  | [], _ => true
  | _ :: _, [] => false
  | a :: as, b :: bs => if a.toNat = b.toNat then lexLeL as bs else decide (a.toNat < b.toNat)

/-- Rust `a.cmp(&b) != Greater` for `String`. -/
def lexLe (a b : String) : Bool := lexLeL a.data b.data

/-- Does `s` contain `pat` as a contiguous sublist?  Models Rust
`str::contains` with a literal pattern. -/
def containsL : List Char → List Char → Bool
  | [], pat => pat.isEmpty
  | c :: rest, pat => pat.isPrefixOf (c :: rest) || containsL rest pat

/-- Rust `s.contains(pat)` (substring test). -/
def rcontains (s pat : String) : Bool := containsL s.data pat.data

/-- Rust `s.starts_with(pat)`. -/
def rstartsWith (s pat : String) : Bool := pat.data.isPrefixOf s.data

/-- Split `s` at every non-overlapping occurrence of the pattern `pat`
(left to right), keeping empty pieces, exactly like Rust `str::split` with
a literal pattern.  `fuel` bounds the recursion; it is instantiated with
the length of `s`, which suffices because `pat` is non-empty at every call
site (an empty pattern just stops early, a case the program never uses). -/
def splitOnL (fuel : Nat) (s pat acc : List Char) : List (List Char) :=
  match fuel, s with
  | _, [] => [acc.reverse]
  | 0, s => [acc.reverse ++ s]
  | fuel + 1, c :: rest =>
    if pat ≠ [] && pat.isPrefixOf (c :: rest) then
      acc.reverse :: splitOnL fuel ((c :: rest).drop pat.length) pat []
    else
      splitOnL fuel rest pat (c :: acc)

/-- Rust `s.split(pat).collect::<Vec<_>>()`. -/
def rsplit (s pat : String) : List String :=
  (splitOnL s.data.length s.data pat.data []).map (fun l => String.mk l)

/-- Replace every non-overlapping occurrence of `pat` in `s` by `rep`,
left to right, never rescanning replaced text: Rust `str::replace` with a
literal pattern.  `fuel` is instantiated with the length of `s`; every
pattern the program passes is non-empty. -/
def replaceL (fuel : Nat) (s pat rep : List Char) : List Char :=
  match fuel, s with
  | _, [] => []
  | 0, s => s
  | fuel + 1, c :: rest =>
    if pat ≠ [] && pat.isPrefixOf (c :: rest) then
      rep ++ replaceL fuel ((c :: rest).drop pat.length) pat rep
    else
      c :: replaceL fuel rest pat rep

/-- Rust `s.replace(pat, rep)`. -/
def rreplace (s pat rep : String) : String :=
  String.mk (replaceL s.data.length s.data pat.data rep.data)

/-- Rust `iter().max_by(|a, b| f(a).cmp(&f(b)))`: the LAST element with the
maximal key, or `none` on an empty list. -/
def maxByStr {α : Type} (f : α → String) : List α → Option α
  | [] => none
  | x :: xs => some (xs.foldl (fun acc y => if lexLe (f acc) (f y) then y else acc) x)

/-- The artifact record of src/versions.rs (`struct Version`). -/
structure Version where
  name : String
  torch : String
  python : String
  accelerator : String
  os : String
deriving DecidableEq, Repr

/-- The artifact record of src/main.rs (`struct PyTorchVersion`); identical
to `Version` except that the library-version field is called `version` and
the original href is retained. -/
structure PyTorchVersion where
  name : String
  version : String
  python : String
  os : String
  accelerator : String
  href : String
deriving DecidableEq, Repr

/-- `Version::parse_from_html_tag` (src/versions.rs lines 13-42); the
line-identical copy `PyTorchVersion::parse_from_html_tag` in src/main.rs
lines 21-51 additionally stores the href.  Rust's `parts.get(1)?` etc.
yield `Option.none` propagated as `.ok none`; the direct index
`segments[1]` panics when the href has no `/`, modelled as `.error`. -/
def Version.parse_from_html_tag (tag : String) : Except String (Option Version) :=
  let parts := rsplit tag "\""
  match parts.get? 1 with
  | none => .ok none
  | some href =>
    if !(rstartsWith href "cpu") && !(rstartsWith href "cu") then .ok none
    else
      let segments := rsplit href "/"
      match segments.get? 0 with
      | none => .error "panic: index out of bounds"
      | some seg0 =>
        match segments.get? 1 with
        | none => .error "panic: index out of bounds"
        | some seg1 =>
          let accelerator := rreplace seg0 "_pypi_cudnn" ""
          let package_parts := rsplit seg1 "-"
          match package_parts.get? 0 with
          | none => .ok none
          | some nm =>
            match package_parts.get? 1 with
            | none => .ok none
            | some verRaw =>
              match (rsplit verRaw "%2B").get? 0 with
              | none => .ok none
              | some torch =>
                match package_parts.get? 2 with
                | none => .ok none
                | some python =>
                  match package_parts.get? 4 with
                  | none => .ok none
                  | some osRaw =>
                    let os :=
                      rreplace (rreplace (rreplace (rreplace (rreplace (rreplace
                        osRaw "win" "windows") "macosx" "macos") "manylinux" "linux")
                        "amd64" "x86_64") "arm64" "aarch64") ".whl" ""
                    .ok (some { name := nm, torch := torch, python := python,
                                os := os, accelerator := accelerator })

/-- `Version::get_python_semantic_version` (src/versions.rs lines 44-49):
strip every "cp", then join the FIRST and SECOND character with a dot.
`chars().nth(i).unwrap()` panics when fewer than two characters remain,
modelled as `none`. -/
def Version.get_python_semantic_version (v : Version) : Option String :=
  let python_version := rreplace v.python "cp" ""
  match python_version.data with
  | major :: minor :: _ => some (String.mk [major, '.', minor])
  | _ => none

/-- `Version::get_accelerator_semantic_version` (src/versions.rs lines
51-60): "cpu" is returned unchanged; otherwise strip every "cu" and slice
bytes [0..2] as the major and [2..3] as the minor version.  The byte
slices panic when fewer than 3 bytes remain, modelled as `none` (the
program's tags are ASCII, so bytes coincide with characters). -/
def Version.get_accelerator_semantic_version (v : Version) : Option String :=
  if v.accelerator = "cpu" then some "cpu"
  else
    let cuda_version := rreplace v.accelerator "cu" ""
    match cuda_version.data with
    | c0 :: c1 :: c2 :: _ => some (String.mk [c0, c1, '.', c2])
    | _ => none

/-- `PyTorchVersion::get_python_full_version` (src/main.rs lines 53-58),
line-identical to `Version::get_python_semantic_version`. -/
def PyTorchVersion.get_python_full_version (v : PyTorchVersion) : Option String :=
  let python_version := rreplace v.python "cp" ""
  match python_version.data with
  | major :: minor :: _ => some (String.mk [major, '.', minor])
  | _ => none

/-- `PyTorchVersion::get_accelerator_full_version` (src/main.rs lines
60-69): unlike the versions.rs variant, it takes `chars().nth(0)` and
`chars().nth(1)` — ONE character each — as major and minor. -/
def PyTorchVersion.get_accelerator_full_version (v : PyTorchVersion) : Option String :=
  if v.accelerator = "cpu" then some "cpu"
  else
    let cuda_version := rreplace v.accelerator "cu" ""
    match cuda_version.data with
    | major :: minor :: _ => some (String.mk [major, '.', minor])
    | _ => none

/-- `filter_versions_by_specified_version` (src/main.rs lines 437-462):
with a supplied constraint, keep the artifacts whose extracted tag EQUALS
it; otherwise keep those equal to the lexicographic maximum tag, or return
the empty list when there is no maximum (empty input). -/
def filter_versions_by_specified_version (versions : List PyTorchVersion)
    (specified_version : Option String)
    (version_extractor : PyTorchVersion → String) : List PyTorchVersion :=
  match specified_version with
  | some sv => versions.filter (fun v => version_extractor v == sv)
  | none =>
    match maxByStr version_extractor versions with
    | some m => versions.filter (fun v => version_extractor v == version_extractor m)
    | none => []

namespace VersionResolver

/-- `VersionResolver::filter_versions_by_specified_version`
(src/versions.rs lines 198-224): with a supplied constraint, keep the
artifacts whose extracted tag CONTAINS it as a substring; otherwise keep
those containing the lexicographic maximum tag, or return the empty list
when there is no maximum (empty input). -/
def filter_versions_by_specified_version (versions : List Version)
    (specified_version : Option String)
    (version_extractor : Version → String) : List Version :=
  match specified_version with
  | some sv => versions.filter (fun v => rcontains (version_extractor v) sv)
  | none =>
    match maxByStr version_extractor versions with
    | some m => versions.filter (fun v => rcontains (version_extractor v) (version_extractor m))
    | none => []

/-- `VersionResolver::filter_versions_by_os_and_arch` (src/versions.rs
lines 188-196); the lowercased `env::consts::OS` / `env::consts::ARCH`
environment values are passed as parameters. -/
def filter_versions_by_os_and_arch (versions : List Version)
    (computer_os computer_arch : String) : List Version :=
  versions.filter (fun v => rcontains v.os computer_os && rcontains v.os computer_arch)

/-- One insertion step of the stable sort below. -/
def insertByTorch (v : Version) : List Version → List Version
  | [] => [v]
  | w :: ws => if lexLe v.torch w.torch then v :: w :: ws else w :: insertByTorch v ws

/-- `versions.sort_by(|a, b| a.torch.cmp(&b.torch))` (src/versions.rs line
127).  Rust's `sort_by` is a stable sort; stable sorting has a unique
result, realised here as a structurally recursive insertion sort (an
element is inserted in front of the first element whose key is ≥ its own,
so elements with equal keys keep their original relative order). -/
def sortByTorch : List Version → List Version
  | [] => []
  | v :: vs => insertByTorch v (sortByTorch vs)

/-- `filter_map(Version::parse_from_html_tag)` over the listing's lines
(src/versions.rs lines 92-94), propagating a parser panic. -/
def collect_parsed : List String → Except String (List Version)
  | [] => .ok []
  | line :: rest =>
    match Version.parse_from_html_tag line with
    | .error e => .error e
    | .ok v? =>
      match collect_parsed rest with
      | .error e => .error e
      | .ok vs => .ok (match v? with | some v => v :: vs | none => vs)

/-- The message printed before `exit(1)` at src/versions.rs line 130. -/
def noCandidatesMsg : String := "[!] No versions found with the specified constraints"

/-- The candidate set after the name filter, the OS/arch filter, the three
per-dimension filters and the final sort (src/versions.rs lines 95-127),
starting from the already-parsed artifact list. -/
def finalCandidates (parsed : List Version)
    (python_version torch_version cuda_version : Option String)
    (computer_os computer_arch : String) : List Version :=
  let versions := parsed.filter (fun v => v.name == "torch")
  let versions := filter_versions_by_os_and_arch versions computer_os computer_arch
  let versions := filter_versions_by_specified_version versions python_version (fun v => v.python)
  let versions := filter_versions_by_specified_version versions torch_version (fun v => v.torch)
  let versions := filter_versions_by_specified_version versions cuda_version (fun v => v.accelerator)
  sortByTorch versions

/-- `VersionResolver::resolve_versions` (src/versions.rs lines 72-135).
The fetched listing document and the environment's OS/arch are parameters;
`exit(1)` on an empty final candidate set is modelled as `.error
noCandidatesMsg`. -/
def resolve_versions (doc : String)
    (python_version torch_version cuda_version : Option String)
    (computer_os computer_arch : String) : Except String (List Version) :=
  match collect_parsed (rsplit doc "\n") with
  | .error e => .error e
  | .ok parsed =>
    let versions := finalCandidates parsed python_version torch_version cuda_version
      computer_os computer_arch
    if versions.isEmpty then .error noCandidatesMsg else .ok versions

/-- The registry-tag filter inside `VersionResolver::resolve_image_tag`
(src/versions.rs lines 156-165): keep tag names that start with the
accelerator's semantic version and contain both "ubuntu" and "devel". -/
def image_tag_candidates (sem : String) (tags : List String) : List String :=
  tags.filter (fun tag => rstartsWith tag sem && rcontains tag "ubuntu" && rcontains tag "devel")

/-- `VersionResolver::resolve_image_tag` (src/versions.rs lines 137-186).
The tag-registry response is abstracted to its list of tag names; the CPU
branch returns the constant "ubuntu:22.04" without consulting it.
`exit(1)` when no tag survives is modelled as `.error`. -/
def resolve_image_tag (version : Version) (tags : List String) : Except String String :=
  if version.accelerator == "cpu" then .ok "ubuntu:22.04"
  else
    match version.get_accelerator_semantic_version with
    | none => .error "panic: byte index out of bounds"
    | some sem =>
      let filtered := image_tag_candidates sem tags
      match maxByStr id filtered with
      | none => .error ("[!] No CUDA image found for version " ++ sem)
      | some tag => .ok ("nvidia/cuda:" ++ tag)

end VersionResolver

/-- The field-for-field correspondence between the two artifact records:
`PyTorchVersion.version` is `Version.torch`; the extra `href` is dropped. -/
def toVersion (p : PyTorchVersion) : Version :=
  { name := p.name, torch := p.version, python := p.python,
    os := p.os, accelerator := p.accelerator }

/-- Modelled from the spec: the spec's description of interpreter
semantic-version extraction ("a two-character major + two-character minor
code", spec §4.2 numeric semantics note) — after removing the prefix, the
first two characters are the major and the next two the minor version,
joined with a dot.  No function in src/ implements this; it exists only to
be compared with `Version.get_python_semantic_version`. -/
def spec_python_semantic_version (python : String) : String :=
  let r := rreplace python "cp" ""
  String.mk (r.data.take 2) ++ "." ++ String.mk ((r.data.drop 2).take 2)

/-- A parsed cu117 artifact, as produced from the listing line
`href="cu117/torch-1.13.1%2Bcu117-cp310-cp310-linux_x86_64.whl"`. -/
def v_cu117 : Version :=
  { name := "torch", torch := "1.13.1", python := "cp310",
    os := "linux_x86_64", accelerator := "cu117" }

/-- A parsed CPU artifact. -/
def v_cpu : Version :=
  { name := "torch", torch := "1.13.1", python := "cp310",
    os := "linux_x86_64", accelerator := "cpu" }

/-- The same cu117 artifact as a src/main.rs record. -/
def p_cu117 : PyTorchVersion :=
  { name := "torch", version := "1.13.1", python := "cp310",
    os := "linux_x86_64", accelerator := "cu117",
    href := "cu117/torch-1.13.1%2Bcu117-cp310-cp310-linux_x86_64.whl" }

/-- An older CPU artifact (library version 1.12.0). -/
def v_cpu_1120 : Version :=
  { name := "torch", torch := "1.12.0", python := "cp310",
    os := "linux_x86_64", accelerator := "cpu" }

/-- Example-3 candidate set: library versions 1.12.0, 1.13.0, 1.13.1. -/
def v_cpu_1130 : Version :=
  { name := "torch", torch := "1.13.0", python := "cp310",
    os := "linux_x86_64", accelerator := "cpu" }

/-! Helper lemmas about the string order, `maxByStr` and the sort. -/

theorem lexLeL_refl : ∀ l : List Char, lexLeL l l = true
  | [] => rfl
  | a :: as => by simp [lexLeL, lexLeL_refl as]

theorem lexLeL_total : ∀ a b : List Char, lexLeL a b = true ∨ lexLeL b a = true
  | [], _ => Or.inl rfl
  | _ :: _, [] => Or.inr rfl
  | a :: as, b :: bs => by
    by_cases h : a.toNat = b.toNat
    · rcases lexLeL_total as bs with h1 | h1
      · exact Or.inl (by simp [lexLeL, h, h1])
      · exact Or.inr (by simp [lexLeL, h.symm, h1])
    · rcases Nat.lt_or_ge a.toNat b.toNat with h2 | h2
      · exact Or.inl (by simp [lexLeL, h, h2])
      · have h3 : b.toNat < a.toNat := Nat.lt_of_le_of_ne h2 fun e => h e.symm
        have h4 : ¬b.toNat = a.toNat := fun e => h e.symm
        exact Or.inr (by simp [lexLeL, h4, h3])

theorem lexLeL_trans : ∀ a b c : List Char,
    lexLeL a b = true → lexLeL b c = true → lexLeL a c = true
  | [], _, _, _, _ => rfl
  | _ :: _, [], _, h1, _ => by simp [lexLeL] at h1
  | _ :: _, _ :: _, [], _, h2 => by simp [lexLeL] at h2
  | a :: as, b :: bs, c :: cs, h1, h2 => by
    simp only [lexLeL] at h1 h2 ⊢
    by_cases e1 : a.toNat = b.toNat
    · by_cases e2 : b.toNat = c.toNat
      · rw [if_pos e1] at h1
        rw [if_pos e2] at h2
        rw [if_pos (e1.trans e2)]
        exact lexLeL_trans as bs cs h1 h2
      · rw [if_neg e2] at h2
        have hb := of_decide_eq_true h2
        have e3 : ¬a.toNat = c.toNat := by omega
        rw [if_neg e3]
        exact decide_eq_true (by omega)
    · rw [if_neg e1] at h1
      have ha := of_decide_eq_true h1
      by_cases e2 : b.toNat = c.toNat
      · have e3 : ¬a.toNat = c.toNat := by omega
        rw [if_neg e3]
        exact decide_eq_true (by omega)
      · rw [if_neg e2] at h2
        have hb := of_decide_eq_true h2
        have e3 : ¬a.toNat = c.toNat := by omega
        rw [if_neg e3]
        exact decide_eq_true (by omega)

theorem lexLe_refl (s : String) : lexLe s s = true := lexLeL_refl s.data

theorem lexLe_total (a b : String) : lexLe a b = true ∨ lexLe b a = true :=
  lexLeL_total a.data b.data

theorem lexLe_trans {a b c : String} (h1 : lexLe a b = true) (h2 : lexLe b c = true) :
    lexLe a c = true :=
  lexLeL_trans a.data b.data c.data h1 h2

theorem rcontains_refl (s : String) : rcontains s s = true := by
  have hp : s.data.isPrefixOf s.data = true :=
    List.isPrefixOf_iff_prefix.mpr (List.prefix_refl s.data)
  cases h : s.data with
  | nil => simp [rcontains, h, containsL, List.isEmpty]
  | cons c rest =>
    rw [rcontains, h]
    rw [h] at hp
    simp [containsL, hp]

theorem maxByStr_foldl_le {α : Type} (f : α → String) : ∀ (xs : List α) (acc : α),
    lexLe (f acc) (f (xs.foldl (fun a y => if lexLe (f a) (f y) then y else a) acc)) = true ∧
    ∀ u ∈ xs, lexLe (f u) (f (xs.foldl (fun a y => if lexLe (f a) (f y) then y else a) acc)) = true
  | [], acc => ⟨lexLe_refl _, by simp⟩
  | y :: ys, acc => by
    by_cases h : lexLe (f acc) (f y) = true
    · obtain ⟨ih1, ih2⟩ := maxByStr_foldl_le f ys y
      refine ⟨?_, ?_⟩
      · simpa [List.foldl_cons, h] using lexLe_trans h ih1
      · intro u hu
        rcases List.mem_cons.mp hu with rfl | hu
        · simpa [List.foldl_cons, h] using ih1
        · simpa [List.foldl_cons, h] using ih2 u hu
    · obtain ⟨ih1, ih2⟩ := maxByStr_foldl_le f ys acc
      have hy : lexLe (f y) (f acc) = true := (lexLe_total _ _).resolve_left h
      refine ⟨?_, ?_⟩
      · simpa [List.foldl_cons, h] using ih1
      · intro u hu
        rcases List.mem_cons.mp hu with rfl | hu
        · simpa [List.foldl_cons, h] using lexLe_trans hy ih1
        · simpa [List.foldl_cons, h] using ih2 u hu

theorem maxByStr_le {α : Type} (f : α → String) (l : List α) (m : α)
    (h : maxByStr f l = some m) : ∀ u ∈ l, lexLe (f u) (f m) = true := by
  cases l with
  | nil => cases h
  | cons x xs =>
    simp only [maxByStr, Option.some.injEq] at h
    subst h
    intro u hu
    rcases List.mem_cons.mp hu with rfl | hu
    · exact (maxByStr_foldl_le f xs u).1
    · exact (maxByStr_foldl_le f xs x).2 u hu

theorem maxByStr_foldl_mem {α : Type} (f : α → String) : ∀ (xs : List α) (acc : α),
    xs.foldl (fun a y => if lexLe (f a) (f y) then y else a) acc = acc ∨
    xs.foldl (fun a y => if lexLe (f a) (f y) then y else a) acc ∈ xs
  | [], _ => Or.inl rfl
  | y :: ys, acc => by
    rw [List.foldl_cons]
    by_cases h : lexLe (f acc) (f y) = true
    · rcases maxByStr_foldl_mem f ys y with h1 | h1
      · right
        simp [h, h1]
      · right
        simp only [h, if_true]
        exact List.mem_cons_of_mem y (by simpa [h] using h1)
    · rcases maxByStr_foldl_mem f ys acc with h1 | h1
      · left
        simpa [h] using h1
      · right
        exact List.mem_cons_of_mem y (by simpa [h] using h1)

theorem maxByStr_mem {α : Type} (f : α → String) (l : List α) (m : α)
    (h : maxByStr f l = some m) : m ∈ l := by
  cases l with
  | nil => cases h
  | cons x xs =>
    simp only [maxByStr, Option.some.injEq] at h
    subst h
    rcases maxByStr_foldl_mem f xs x with h1 | h1
    · rw [h1]; exact List.mem_cons_self x xs
    · exact List.mem_cons_of_mem x h1

theorem maxByStr_eq_none {α : Type} (f : α → String) (l : List α)
    (h : maxByStr f l = none) : l = [] := by
  cases l with
  | nil => rfl
  | cons x xs => simp [maxByStr] at h

theorem maxByStr_map_foldl {α β : Type} (f : α → String) (g : β → String) (t : α → β)
    (h : ∀ a, g (t a) = f a) : ∀ (xs : List α) (acc : α),
    (xs.map t).foldl (fun a y => if lexLe (g a) (g y) then y else a) (t acc) =
      t (xs.foldl (fun a y => if lexLe (f a) (f y) then y else a) acc)
  | [], _ => rfl
  | y :: ys, acc => by
    simp only [List.map_cons, List.foldl_cons, h]
    by_cases hc : lexLe (f acc) (f y) = true
    · simpa [hc] using maxByStr_map_foldl f g t h ys y
    · simpa [hc] using maxByStr_map_foldl f g t h ys acc

theorem maxByStr_map {α β : Type} (f : α → String) (g : β → String) (t : α → β)
    (h : ∀ a, g (t a) = f a) : ∀ l : List α, maxByStr g (l.map t) = (maxByStr f l).map t
  | [] => rfl
  | x :: xs => by
    simp only [List.map_cons, maxByStr, Option.map_some']
    exact congrArg some (maxByStr_map_foldl f g t h xs x)

theorem mem_insertByTorch (v : Version) : ∀ (l : List Version) (x : Version),
    x ∈ VersionResolver.insertByTorch v l ↔ x = v ∨ x ∈ l
  | [], x => by simp [VersionResolver.insertByTorch]
  | w :: ws, x => by
    simp only [VersionResolver.insertByTorch]
    by_cases h : lexLe v.torch w.torch = true
    · rw [if_pos h]
      simp only [List.mem_cons]
    · rw [if_neg h]
      simp only [List.mem_cons, mem_insertByTorch v ws x]
      tauto

theorem pairwise_insertByTorch (v : Version) : ∀ l : List Version,
    l.Pairwise (fun a b => lexLe a.torch b.torch = true) →
    (VersionResolver.insertByTorch v l).Pairwise (fun a b => lexLe a.torch b.torch = true)
  | [], _ => by simp [VersionResolver.insertByTorch]
  | w :: ws, hp => by
    rw [List.pairwise_cons] at hp
    obtain ⟨hw, hws⟩ := hp
    simp only [VersionResolver.insertByTorch]
    by_cases hc : lexLe v.torch w.torch = true
    · rw [if_pos hc, List.pairwise_cons]
      refine ⟨?_, List.pairwise_cons.mpr ⟨hw, hws⟩⟩
      intro x hx
      rcases List.mem_cons.mp hx with rfl | hx
      · exact hc
      · exact lexLe_trans hc (hw x hx)
    · rw [if_neg hc, List.pairwise_cons]
      refine ⟨?_, pairwise_insertByTorch v ws hws⟩
      intro x hx
      rcases (mem_insertByTorch v ws x).mp hx with rfl | hx
      · exact (lexLe_total _ _).resolve_left hc
      · exact hw x hx

theorem pairwise_sortByTorch : ∀ l : List Version,
    (VersionResolver.sortByTorch l).Pairwise (fun a b => lexLe a.torch b.torch = true)
  | [] => List.Pairwise.nil
  | v :: vs => pairwise_insertByTorch v _ (pairwise_sortByTorch vs)

theorem mem_of_getLast?_eq {α : Type} : ∀ (l : List α) (m : α), l.getLast? = some m → m ∈ l
  | [], _, h => by cases h
  | [x], m, h => by
    simp only [List.getLast?_singleton, Option.some.injEq] at h
    simp [h]
  | x :: y :: rest, m, h => by
    rw [List.getLast?_cons_cons] at h
    exact List.mem_cons_of_mem x (mem_of_getLast?_eq (y :: rest) m h)

theorem pairwise_getLast_max : ∀ l : List Version,
    l.Pairwise (fun a b => lexLe a.torch b.torch = true) → l ≠ [] →
    ∃ m, l.getLast? = some m ∧ ∀ v ∈ l, lexLe v.torch m.torch = true
  | [], _, h => absurd rfl h
  | [x], _, _ => by
    refine ⟨x, rfl, ?_⟩
    intro v hv
    rcases List.mem_cons.mp hv with rfl | hv
    · exact lexLe_refl _
    · cases hv
  | x :: y :: rest, hp, _ => by
    rw [List.pairwise_cons] at hp
    obtain ⟨hx, hp'⟩ := hp
    obtain ⟨m, hm, hmax⟩ := pairwise_getLast_max (y :: rest) hp' (by simp)
    refine ⟨m, by rw [List.getLast?_cons_cons]; exact hm, ?_⟩
    intro v hv
    rcases List.mem_cons.mp hv with rfl | hv
    · exact hx m (mem_of_getLast?_eq (y :: rest) m hm)
    · exact hmax v hv

/-- The final sort applied at the end of `finalCandidates` (definitional
unfolding of the `let` chain of src/versions.rs lines 95-127). -/
theorem finalCandidates_eq_sort (parsed : List Version)
    (pv tv cv : Option String) (os arch : String) :
    VersionResolver.finalCandidates parsed pv tv cv os arch =
      VersionResolver.sortByTorch
        (VersionResolver.filter_versions_by_specified_version
          (VersionResolver.filter_versions_by_specified_version
            (VersionResolver.filter_versions_by_specified_version
              (VersionResolver.filter_versions_by_os_and_arch
                (parsed.filter (fun v => v.name == "torch")) os arch)
              pv (fun v => v.python))
            tv (fun v => v.torch))
          cv (fun v => v.accelerator)) := rfl

/-! The claims. -/

/-- C1: the parser returns `None` for lines with fewer than two
quote-delimited fields, for hrefs with a rejected prefix and for filenames
with fewer than five dash fields — but for an accepted-prefix href with
fewer than two slash segments it does NOT return `None`: the direct index
`segments[1]` (src/versions.rs line 21, src/main.rs line 29) panics, so
the claim's "never raises" part fails on the code. -/
theorem parse_from_html_tag_malformed :
    Version.parse_from_html_tag "no quotes here" = .ok none ∧
    Version.parse_from_html_tag "<a href=\"gpu/torch-1.13.1-cp310-cp310-linux_x86_64.whl\">" = .ok none ∧
    Version.parse_from_html_tag "<a href=\"cpu/torch-1.13.1.whl\">" = .ok none ∧
    Version.parse_from_html_tag "<a href=\"cpu\">" = .error "panic: index out of bounds" :=
  ⟨rfl, rfl, rfl, rfl⟩

/-- C2: the constrained per-dimension filter of src/versions.rs keeps
exactly the artifacts whose extracted tag contains the supplied value as a
substring. -/
theorem constrained_filter_mem_iff :
    ∀ (l : List Version) (s : String) (f : Version → String) (v : Version),
    v ∈ VersionResolver.filter_versions_by_specified_version l (some s) f ↔
      v ∈ l ∧ rcontains (f v) s = true := by
  intro l s f v
  simp [VersionResolver.filter_versions_by_specified_version, List.mem_filter]

/-- C3: with no constraint, the per-dimension filter computes the
lexicographically maximum tag value among the candidates (the `maxByStr`
element is a candidate and its tag dominates every candidate's tag) and
keeps exactly the artifacts whose tag contains that maximum. -/
theorem unconstrained_filter_pins_latest :
    ∀ (l : List Version) (f : Version → String) (m : Version),
    maxByStr f l = some m →
      m ∈ l ∧ (∀ u ∈ l, lexLe (f u) (f m) = true) ∧
      VersionResolver.filter_versions_by_specified_version l none f =
        l.filter (fun v => rcontains (f v) (f m)) := by
  intro l f m h
  refine ⟨maxByStr_mem f l m h, maxByStr_le f l m h, ?_⟩
  simp [VersionResolver.filter_versions_by_specified_version, h]

/-- C3 witness (spec Example 3): on candidates with library versions
1.12.0, 1.13.0, 1.13.1 and no library constraint, only the 1.13.1 entry
survives. -/
theorem unconstrained_filter_pins_latest_witness :
    VersionResolver.filter_versions_by_specified_version
      [v_cpu_1120, v_cpu_1130, v_cpu] none (fun v => v.torch) = [v_cpu] :=
  ((unconstrained_filter_pins_latest [v_cpu_1120, v_cpu_1130, v_cpu]
    (fun v => v.torch) v_cpu rfl).2.2).trans (by decide)

/-- C4: whenever resolution succeeds, the returned candidate list is
sorted by the library-version string under the plain lexicographic string
order `lexLe`, and its last element is a lexicographic maximum (the
resolved version taken by `versions.last()` in src/main.rs line 150). -/
theorem resolve_versions_sorted_last_max :
    ∀ (doc : String) (pv tv cv : Option String) (os arch : String) (out : List Version),
    VersionResolver.resolve_versions doc pv tv cv os arch = .ok out →
      out.Pairwise (fun a b => lexLe a.torch b.torch = true) ∧
      ∃ m, out.getLast? = some m ∧ ∀ v ∈ out, lexLe v.torch m.torch = true := by
  intro doc pv tv cv os arch out h
  simp only [VersionResolver.resolve_versions] at h
  cases hcp : VersionResolver.collect_parsed (rsplit doc "\n") with
  | error e => rw [hcp] at h; simp at h
  | ok parsed =>
    rw [hcp] at h
    simp only at h
    by_cases he : (VersionResolver.finalCandidates parsed pv tv cv os arch).isEmpty = true
    · rw [if_pos he] at h; simp at h
    · rw [if_neg he] at h
      have hout : out = VersionResolver.finalCandidates parsed pv tv cv os arch := by
        cases h; rfl
      subst hout
      have hne : VersionResolver.finalCandidates parsed pv tv cv os arch ≠ [] := by
        intro hnil
        exact he (by simp [hnil])
      have hsorted : (VersionResolver.finalCandidates parsed pv tv cv os arch).Pairwise
          (fun a b => lexLe a.torch b.torch = true) := by
        rw [finalCandidates_eq_sort]
        exact pairwise_sortByTorch _
      exact ⟨hsorted, pairwise_getLast_max _ hsorted hne⟩

/-- C4 witness: a two-line listing resolved with a partial library
constraint "1.1" yields the sorted pair 1.12.0, 1.13.1. -/
theorem resolve_versions_sorted_last_max_witness :
    List.Pairwise (fun a b => lexLe a.torch b.torch = true) [v_cpu_1120, v_cpu] :=
  (resolve_versions_sorted_last_max
    "<a href=\"cpu/torch-1.13.1-cp310-cp310-linux_x86_64.whl\">\n<a href=\"cpu/torch-1.12.0-cp310-cp310-linux_x86_64.whl\">"
    none (some "1.1") none "linux" "x86_64" [v_cpu_1120, v_cpu] (by decide)).1

/-- C5: an empty candidate set is a fixed point of the per-dimension
filter (constrained or not), and resolution fails with the
no-candidates error exactly when the final candidate set is empty. -/
theorem empty_chain_termination :
    (∀ (sv : Option String) (f : Version → String),
      VersionResolver.filter_versions_by_specified_version [] sv f = []) ∧
    ∀ (doc : String) (pv tv cv : Option String) (os arch : String) (parsed : List Version),
      VersionResolver.collect_parsed (rsplit doc "\n") = .ok parsed →
      (VersionResolver.resolve_versions doc pv tv cv os arch =
          .error VersionResolver.noCandidatesMsg ↔
        VersionResolver.finalCandidates parsed pv tv cv os arch = []) := by
  constructor
  · intro sv f
    cases sv <;> simp [VersionResolver.filter_versions_by_specified_version, maxByStr]
  · intro doc pv tv cv os arch parsed hcp
    simp only [VersionResolver.resolve_versions, hcp]
    by_cases he : (VersionResolver.finalCandidates parsed pv tv cv os arch).isEmpty = true
    · rw [if_pos he]
      simp [List.isEmpty_iff.mp he]
    · rw [if_neg he]
      constructor
      · intro h; simp at h
      · intro h; exact absurd (List.isEmpty_iff.mpr h) he

/-- C5 witness: a one-line listing with an unsatisfiable accelerator
constraint fails with the no-candidates error. -/
theorem empty_chain_termination_witness :
    VersionResolver.resolve_versions "<a href=\"cpu/torch-1.13.1-cp310-cp310-linux_x86_64.whl\">"
      none none (some "cu999") "linux" "x86_64" = .error VersionResolver.noCandidatesMsg :=
  (empty_chain_termination.2 _ none none (some "cu999") "linux" "x86_64" [v_cpu]
    (by decide)).mpr (by decide)

/-- C6 counterexample: the code's interpreter extraction takes ONE
character for the major and ONE for the minor version ("cp310" yields
"3.1"), not a two-character major and two-character minor as claimed
(which would yield "31.0"). -/
theorem python_semantic_version_not_two_char :
    Version.get_python_semantic_version v_cu117 = some "3.1" ∧
    spec_python_semantic_version v_cu117.python = "31.0" ∧
    Version.get_python_semantic_version v_cu117 ≠
      some (spec_python_semantic_version v_cu117.python) :=
  ⟨rfl, rfl, by decide⟩

/-- C6 amended: the interpreter semantic version is the FIRST character
(major) and SECOND character (minor) of the tag after removing the "cp"
prefix, joined with a dot. -/
theorem python_semantic_version_single_chars :
    ∀ (v : Version) (c0 c1 : Char) (rest : List Char),
    (rreplace v.python "cp" "").data = c0 :: c1 :: rest →
    Version.get_python_semantic_version v = some (String.mk [c0, '.', c1]) := by
  intro v c0 c1 rest h
  simp [Version.get_python_semantic_version, h]

/-- C6 amended witness: the cp310 artifact yields "3.1". -/
theorem python_semantic_version_single_chars_witness :
    Version.get_python_semantic_version v_cpu = some "3.1" :=
  python_semantic_version_single_chars v_cpu '3' '1' ['0'] rfl

/-- C7: versions.rs maps accelerator tag "cu117" to semantic version
"11.7" and "cpu" to "cpu", and the CPU branch of `resolve_image_tag`
returns the constant "ubuntu:22.04" for every registry response (no
lookup) — but the duplicated extractor in src/main.rs
(`get_accelerator_full_version`, single-character slicing) returns "1.1"
for the same "cu117" tag, contradicting the claim. -/
theorem accelerator_semantic_version_cu117_cpu :
    Version.get_accelerator_semantic_version v_cu117 = some "11.7" ∧
    Version.get_accelerator_semantic_version v_cpu = some "cpu" ∧
    (∀ tags : List String, VersionResolver.resolve_image_tag v_cpu tags = .ok "ubuntu:22.04") ∧
    PyTorchVersion.get_accelerator_full_version p_cu117 = some "1.1" :=
  ⟨rfl, rfl, fun _ => rfl, rfl⟩

/-- C8 (spec Example 5): on the three-tag registry response, the filter
keeps the two devel/ubuntu tags starting with "11.7" and the maximum is
11.7.1-devel-ubuntu22.04, prefixed into the final image reference. -/
theorem resolve_image_tag_example :
    VersionResolver.image_tag_candidates "11.7"
        ["11.7.0-devel-ubuntu22.04", "11.7.1-devel-ubuntu22.04", "11.7.0-runtime-ubuntu22.04"] =
      ["11.7.0-devel-ubuntu22.04", "11.7.1-devel-ubuntu22.04"] ∧
    VersionResolver.resolve_image_tag v_cu117
        ["11.7.0-devel-ubuntu22.04", "11.7.1-devel-ubuntu22.04", "11.7.0-runtime-ubuntu22.04"] =
      .ok "nvidia/cuda:11.7.1-devel-ubuntu22.04" :=
  ⟨rfl, rfl⟩

/-- C9 (spec Example 1): the cpu/torch-1.13.1 listing line parses to the
expected record, with the ".whl" suffix stripped from the platform. -/
theorem parse_example_cpu_line :
    Version.parse_from_html_tag
        "<a href=\"cpu/torch-1.13.1-cp310-cp310-linux_x86_64.whl\">cpu/torch-1.13.1-cp310-cp310-linux_x86_64.whl</a><br>" =
      .ok (some { name := "torch", torch := "1.13.1", python := "cp310",
                  os := "linux_x86_64", accelerator := "cpu" }) :=
  rfl

/-- C10 counterexample: the two per-dimension filters do not select the
same elements — on the python dimension with constraint "31", the
src/main.rs filter (exact equality) drops the cp310 artifact while the
src/versions.rs filter (substring) keeps it. -/
theorem filters_not_equivalent :
    filter_versions_by_specified_version [p_cu117] (some "31") (fun p => p.python) = [] ∧
    VersionResolver.filter_versions_by_specified_version [toVersion p_cu117] (some "31")
      (fun v => v.python) = [toVersion p_cu117] :=
  ⟨rfl, rfl⟩

/-- C10 amended: for corresponding extractors, every element the
src/main.rs filter keeps is also kept by the src/versions.rs filter (the
equality test refines the substring test), in order. -/
theorem main_filter_sublist_resolver_filter :
    ∀ (l : List PyTorchVersion) (sv : Option String)
      (f : PyTorchVersion → String) (g : Version → String),
    (∀ p, g (toVersion p) = f p) →
    ((filter_versions_by_specified_version l sv f).map toVersion).Sublist
      (VersionResolver.filter_versions_by_specified_version (l.map toVersion) sv g) := by
  intro l sv f g h
  cases sv with
  | some s =>
    simp only [filter_versions_by_specified_version,
      VersionResolver.filter_versions_by_specified_version]
    rw [List.filter_map]
    refine List.Sublist.map toVersion (List.monotone_filter_right l ?_)
    intro p hp
    simp only [Function.comp_apply]
    rw [h p]
    have hfp : f p = s := by simpa using hp
    rw [hfp]
    exact rcontains_refl s
  | none =>
    have hm := maxByStr_map f g toVersion h l
    cases hfl : maxByStr f l with
    | none =>
      have hnil : l = [] := maxByStr_eq_none f l hfl
      subst hnil
      simp [filter_versions_by_specified_version,
        VersionResolver.filter_versions_by_specified_version, maxByStr]
    | some m =>
      rw [hfl, Option.map_some'] at hm
      simp only [filter_versions_by_specified_version,
        VersionResolver.filter_versions_by_specified_version, hfl, hm]
      rw [List.filter_map]
      refine List.Sublist.map toVersion (List.monotone_filter_right l ?_)
      intro p hp
      simp only [Function.comp_apply]
      rw [h p, h m]
      have hfp : f p = f m := by simpa using hp
      rw [hfp]
      exact rcontains_refl _

/-- C10 amended witness: on a concrete one-element list with the python
extractor on both sides, the mapped src/main.rs selection is a sublist of
the src/versions.rs selection. -/
theorem main_filter_sublist_resolver_filter_witness :
    ((filter_versions_by_specified_version [p_cu117] none (fun p => p.python)).map toVersion).Sublist
      (VersionResolver.filter_versions_by_specified_version ([p_cu117].map toVersion) none
        (fun v => v.python)) :=
  main_filter_sublist_resolver_filter [p_cu117] none (fun p => p.python) (fun v => v.python)
    (fun _ => rfl)

end Cudalis
